import Mathlib

/-!
Verification of the core algorithms of `gpt_index` (file `src/gpt_index/index.py`):
the bottom-up index builder (`GPTIndexBuilder`) and the top-down query engine
(`GPTIndex`).

Shallow embedding conventions:
* Python `Node` dataclasses become a Lean structure; `child_indices : Set[int]`
  becomes `Finset Nat`.
* Python `Dict[int, Node]` values become `List Node`.  Throughout
  `index.py` every dictionary maps an id `i` to a node whose `index` field is
  `i` (this holds at every construction site), so the list of values determines
  the dictionary; lookups go through the `index` field.
* The external LLM is modelled as explicit oracle functions; universal
  quantification over them covers arbitrary oracle responses.
* Recursions whose termination depends on data (layer merging, tree descent)
  take an explicit fuel parameter; exhausted fuel is a distinguished outcome
  that sufficient fuel rules out.  All definitions are structurally recursive
  so that concrete instances evaluate inside the kernel.
* Python runtime exceptions (IndexError, KeyError, calling a method on `None`)
  are modelled by an explicit error outcome.
* `print` calls and the `verbose` flag only produce console output in the
  source and are not modelled.
-/

namespace GptIndex

/-- `Node` from `gpt_index.schema` as used by `index.py`: constructed as
`Node(text, index, child_indices)`. -/
structure Node where
  text : String
  index : Nat
  child_indices : Finset Nat
deriving DecidableEq

/-- `IndexGraph` from `gpt_index.schema`: `all_nodes` and `root_nodes`
dictionaries (represented by their value lists, see the header comment). -/
structure IndexGraph where
  all_nodes : List Node
  root_nodes : List Node
deriving DecidableEq

/-- Dictionary lookup `node_dict[i]`: the first node whose `index` field is `i`
(`none` models a `KeyError`). -/
def dict_lookup (d : List Node) (i : Nat) : Option Node :=
  d.find? (fun n => n.index == i)

/-- Python `dict.update`: keys already present keep their position and receive
the new value; genuinely new keys are appended in order. -/
def dict_update (old new : List Node) : List Node :=
  old.map (fun n => (dict_lookup new n.index).getD n) ++
    new.filter (fun m => (dict_lookup old m.index).isNone)

/-- `_get_sorted_node_list`: the dictionary's nodes sorted by id.  Python's
`sorted` over the integer keys is modelled by a stable insertion sort on the
`index` field (the keys of a dictionary are distinct, so any sort agrees). -/
def _get_sorted_node_list (node_dict : List Node) : List Node :=
  List.insertionSort (fun a b => a.index ≤ b.index) node_dict

/-- `_get_text_from_nodes` (index.py lines 34-40): concatenate the texts, each
followed by a newline. -/
def _get_text_from_nodes (node_list : List Node) : String :=
  node_list.foldl (fun text node => text ++ node.text ++ "\n") ""

/-- Python `str.splitlines`, restricted to the separator `"\n"` (the only
line terminator relevant here): like `splitOn "\n"` but without a trailing
empty piece. -/
def py_splitlines (s : String) : List String :=
  let parts := s.splitOn "\n"
  if parts.getLast? = some "" then parts.dropLast else parts

/-- `_get_numbered_text_from_nodes` (index.py lines 43-51): a 1-indexed
numbered listing, each entry followed by a blank line. -/
def _get_numbered_text_from_nodes (node_list : List Node) : String :=
  node_list.enum.foldl
    (fun text p =>
      text ++ "(" ++ Nat.repr (p.1 + 1) ++ ") " ++
        String.intercalate " " (py_splitlines p.2.text) ++ "\n\n")
    ""

/-! ### The index builder (`GPTIndexBuilder`) -/

/-- One iteration layer of the `for i in range(0, len(cur_node_list), num_children)`
loop of `_build_index_from_nodes` (index.py lines 99-109).  `B` is
`num_children` (the spec requires `B ≥ 1`; `B = 0` raises in Python and is not
modelled), `sm` the summarization oracle (`self.llm_chain.predict`),
`cur_index` the id counter.  Each step consumes the slice
`cur_node_list[i : i + B]` — the head plus `B - 1` further nodes — and builds
`Node(new_summary, cur_index, {n.index for n in chunk})`.  The fuel argument
only makes the recursion structural; `fuel ≥ length` (as in `_build_pass`)
never exhausts it because every step consumes at least one node. -/
def _build_pass_fuel (B : Nat) (sm : String → String) :
    Nat → Nat → List Node → List Node
  | _, _, [] => []
  | 0, _, _ :: _ => []
  | fuel + 1, cur_index, x :: xs =>
    let cur_nodes_chunk := x :: xs.take (B - 1)
    let new_summary := sm (_get_text_from_nodes cur_nodes_chunk)
    let new_node : Node :=
      ⟨new_summary, cur_index, (cur_nodes_chunk.map Node.index).toFinset⟩
    new_node :: _build_pass_fuel B sm fuel (cur_index + 1) (xs.drop (B - 1))

/-- The whole merge loop of `_build_index_from_nodes` over a sorted layer:
the list of values of `new_node_dict`, in creation (= id) order. -/
def _build_pass (B : Nat) (sm : String → String) (cur_index : Nat)
    (cur_node_list : List Node) : List Node :=
  _build_pass_fuel B sm cur_node_list.length cur_index cur_node_list

/-- `_build_index_from_nodes` (index.py lines 89-116): repeatedly merge the
current layer; `cur_index` starts at `len(all_nodes)`; `all_nodes` is updated
with the new layer; recurse while the new layer is larger than `B`.  Returns
`(all_nodes, root_nodes)` (the Python method mutates `all_nodes` in place and
returns the root dictionary).  `none` means the fuel bound was hit — the
source recursion has no bound and diverges exactly when every fuel returns
`none`. -/
def _build_index_from_nodes (B : Nat) (sm : String → String) :
    Nat → List Node → List Node → Option (List Node × List Node)
  | 0, _, _ => none
  | fuel + 1, cur_nodes, all_nodes =>
    let cur_node_list := _get_sorted_node_list cur_nodes
    let new_node_dict := _build_pass B sm all_nodes.length cur_node_list
    let all_nodes2 := dict_update all_nodes new_node_dict
    if new_node_dict.length ≤ B then some (all_nodes2, new_node_dict)
    else _build_index_from_nodes B sm fuel new_node_dict all_nodes2

/-- `build_from_text` (index.py lines 75-87) after the external
`TokenTextSplitter` (not part of the core, specified only at its interface)
has produced the ordered chunk list: leaf `Node(t, i, set())` per chunk, then
`_build_index_from_nodes(all_nodes, all_nodes)`. -/
def build_from_text_chunks (B : Nat) (sm : String → String) (fuel : Nat)
    (text_chunks : List String) : Option IndexGraph :=
  let all_nodes := text_chunks.enum.map (fun p => Node.mk p.2 p.1 ∅)
  match _build_index_from_nodes B sm fuel all_nodes all_nodes with
  | none => none
  | some (all2, roots) => some ⟨all2, roots⟩

/-! ### The query engine (`GPTIndex`) -/

/-- The four oracle templates used by the query engine
(`DEFAULT_QUERY_PROMPT`, `DEFAULT_QUERY_PROMPT_MULTIPLE`,
`DEFAULT_TEXT_QA_PROMPT`, `DEFAULT_REFINE_PROMPT`), each modelled as a
function of its keyword parameters in source order:
`select num_chunks query_str context_list`,
`selectMulti num_chunks query_str context_list branching_factor`,
`answer context_str query_str`,
`refine query_str existing_answer context_msg`. -/
structure QueryOracle where
  select : Nat → String → String → String
  selectMulti : Nat → String → String → Nat → String
  answer : String → String → String
  refine : String → String → String → String

/-- Outcome of a Python call: a returned value (`val none` is Python `None`,
which `_query` can return), an uncaught runtime exception (`err`), or the
embedding's fuel bound (`gas`, impossible with sufficient fuel). -/
inductive PRes where
  | val : Option String → PRes
  | err : PRes
  | gas : PRes
deriving DecidableEq

/-- Modelled from the spec: `extract_numbers_given_response` lives in
`gpt_index.utils`, which is not under `src/`.  Per the spec it scans the
response text for numeric tokens in order of appearance and stops after `n`
are found.  `digit_runs` collects the maximal digit runs of the character
list, accumulating the value of the run currently being read. -/
def digit_runs : List Char → Option Nat → List Nat
  | [], none => []
  | [], some cur => [cur]
  | c :: cs, none =>
    if c.isDigit then digit_runs cs (some (c.toNat - 48)) else digit_runs cs none
  | c :: cs, some cur =>
    if c.isDigit then digit_runs cs (some (10 * cur + (c.toNat - 48)))
    else cur :: digit_runs cs none

/-- Modelled from the spec: numeric tokens of the response in order of
appearance, capped at `n` values.  Digit runs parse to nonnegative integers,
so every extracted slot is a parsable number `≥ 0`. -/
def extract_numbers_given_response (response : String) (n : Nat) : List Nat :=
  (digit_runs response.toList none).take n

/-- Python list indexing with a possibly negative index, as in
`cur_node_list[number - 1]`: negative indices count from the end; an index out
of range on both sides is an `IndexError` (`none`). -/
def py_get (l : List Node) (i : Int) : Option Node :=
  if 0 ≤ i then l.get? i.toNat
  else if 0 ≤ i + l.length then l.get? (i + l.length).toNat
  else none

/-- The selection oracle call of `_query` (index.py lines 187-201): the single
selection template when `child_branch_factor == 1`, otherwise the multiple
selection template with the branching factor. -/
def selectionResponse (o : QueryOracle) (cbf : Nat) (cur_node_list : List Node)
    (query_str : String) : String :=
  if cbf = 1 then
    o.select cur_node_list.length query_str
      (_get_numbered_text_from_nodes cur_node_list)
  else
    o.selectMulti cur_node_list.length query_str
      (_get_numbered_text_from_nodes cur_node_list) cbf

/-- The dictionary comprehension
`{i: self.graph.all_nodes[i] for i in selected_node.child_indices}`
(index.py line 159): `none` models the `KeyError` raised when a child id is
missing from `all_nodes`.  Set iteration order is unspecified in Python; the
ids are taken in sorted order (the result is immediately re-sorted by
`_get_sorted_node_list` inside `_query`, so the order never matters). -/
def child_node_dict (all : List Node) (ids : Finset Nat) : Option (List Node) :=
  let id_list := Finset.sort (· ≤ ·) ids
  if id_list.all (fun i => (dict_lookup all i).isSome) then
    some (id_list.filterMap (dict_lookup all))
  else none

/-- Lines 148-163 of `_query_with_selected_node`: the candidate answer for the
selected node — the text-QA oracle on a leaf, the recursive `_query` on the
children otherwise.  `recq` is the recursive call `self._query` (tied to one
less fuel in `_query` below); the graph is threaded through every call to make
mutation — if the code performed any — observable. -/
def candidate_response (o : QueryOracle)
    (recq : IndexGraph → List Node → String → Nat → PRes × IndexGraph)
    (g : IndexGraph) (selected_node : Node) (query_str : String) (level : Nat) :
    PRes × IndexGraph :=
  if selected_node.child_indices = ∅ then
    (PRes.val (some (o.answer selected_node.text query_str)), g)
  else
    match child_node_dict g.all_nodes selected_node.child_indices with
    | none => (PRes.err, g)
    | some child_nodes => recq g child_nodes query_str (level + 1)

/-- `_query_with_selected_node` (index.py lines 134-178): candidate response,
then — when `prev_response` is present — the refine oracle with
`context_msg = "\n".join([selected_node.text, cur_response])`.  Joining when
the candidate is Python `None` raises (`err`). -/
def _query_with_selected_node (o : QueryOracle)
    (recq : IndexGraph → List Node → String → Nat → PRes × IndexGraph)
    (g : IndexGraph) (selected_node : Node) (query_str : String)
    (prev_response : Option String) (level : Nat) : PRes × IndexGraph :=
  match candidate_response o recq g selected_node query_str level with
  | (PRes.val cur_response, g1) =>
    match prev_response with
    | none => (PRes.val cur_response, g1)
    | some prev =>
      match cur_response with
      | none => (PRes.err, g1)
      | some cr =>
        (PRes.val (some (o.refine query_str prev
          (selected_node.text ++ "\n" ++ cr))), g1)
  | other => other

/-- The `for number_str in numbers` loop of `_query` (index.py lines 206-227).
`int(number_str)` always succeeds on a digit run, so the dead
`if number is None` branch cannot fire; `number > len(cur_node_list)` returns
the raw oracle `response`; otherwise the node at `cur_node_list[number - 1]`
(Python indexing: an extracted `0` hits index `-1`, the last node) is resolved
with the running `result_response`, which the loop's final return yields. -/
def _query_loop (o : QueryOracle)
    (recq : IndexGraph → List Node → String → Nat → PRes × IndexGraph)
    (cur_node_list : List Node) (query_str response : String) (level : Nat) :
    IndexGraph → List Nat → Option String → PRes × IndexGraph
  | g, [], result_response => (PRes.val result_response, g)
  | g, number :: rest, result_response =>
    if cur_node_list.length < number then (PRes.val (some response), g)
    else
      match py_get cur_node_list ((number : Int) - 1) with
      | none => (PRes.err, g)
      | some selected_node =>
        match _query_with_selected_node o recq g selected_node query_str
            result_response level with
        | (PRes.val r, g1) =>
          _query_loop o recq cur_node_list query_str response level g1 rest r
        | other => other

/-- `_query` (index.py lines 181-227): sort the current nodes, invoke the
selection oracle, extract up to `child_branch_factor` numbers, and run the
selection loop starting from `result_response = None`. -/
def _query (o : QueryOracle) (cbf : Nat) :
    Nat → IndexGraph → List Node → String → Nat → PRes × IndexGraph
  | 0, g, _, _, _ => (PRes.gas, g)
  | fuel + 1, g, cur_nodes, query_str, level =>
    let cur_node_list := _get_sorted_node_list cur_nodes
    let response := selectionResponse o cbf cur_node_list query_str
    let numbers := extract_numbers_given_response response cbf
    _query_loop o (_query o cbf fuel) cur_node_list query_str response level
      g numbers none

/-- `query` (index.py lines 230-233): `_query` on the root nodes at level 0,
then `.strip()` on the result — which raises (`err`) when `_query` returned
`None`. -/
def query (o : QueryOracle) (cbf fuel : Nat) (g : IndexGraph)
    (query_str : String) : PRes × IndexGraph :=
  match _query o cbf fuel g g.root_nodes query_str 0 with
  | (PRes.val none, g1) => (PRes.err, g1)
  | (PRes.val (some s), g1) => (PRes.val (some s.trim), g1)
  | other => other

/-! ### Persistence (`save_to_disk` / `load_from_disk`) -/

/-- One entry of the persisted JSON mapping: the object
`{ "text": string, "index": integer, "child_indices": array of integers }`. -/
structure NodeRepr where
  text : String
  index : Nat
  child_indices : List Nat
deriving DecidableEq

/-- The persisted graph format: a JSON object with exactly the two fields
`all_nodes` and `root_nodes`, each a mapping from the string form of a node id
to a node object. -/
structure SavedGraph where
  all_nodes : List (String × NodeRepr)
  root_nodes : List (String × NodeRepr)
deriving DecidableEq

/-- Modelled from the spec: `IndexGraph.to_dict` (dataclasses_json, in
`gpt_index.schema`, not under `src/`), as described in spec §6: each node is
keyed by the string form of its id and serialized with its `text`, `index`
and `child_indices` fields, the id set as an array (in ascending order). -/
def node_to_repr (n : Node) : String × NodeRepr :=
  (Nat.repr n.index, ⟨n.text, n.index, Finset.sort (· ≤ ·) n.child_indices⟩)

/-- Modelled from the spec: `save_to_disk` (index.py lines 259-262) minus the
file IO: `json.dump(self.graph.to_dict(), f)`. -/
def graph_to_saved (g : IndexGraph) : SavedGraph :=
  ⟨g.all_nodes.map node_to_repr, g.root_nodes.map node_to_repr⟩

/-- Modelled from the spec: the loader's exact structural inverse for one
entry — the node id is recovered from the stored `index` field (which the
saver always sets equal to the string key). -/
def repr_to_node (e : String × NodeRepr) : Node :=
  ⟨e.2.text, e.2.index, e.2.child_indices.toFinset⟩

/-- Modelled from the spec: `load_from_disk` (index.py lines 253-257) minus
the file IO: `IndexGraph.from_dict(json.load(f))`. -/
def graph_of_saved (s : SavedGraph) : IndexGraph :=
  ⟨s.all_nodes.map repr_to_node, s.root_nodes.map repr_to_node⟩

/-! ### Derived observations used by the theorems -/

/-- `⌈a / b⌉` on naturals. -/
def cdiv (a b : Nat) : Nat := (a + b - 1) / b

/-- Depth (in edges) of the subtree below a node: `0` for a leaf, one more
than the maximal child depth otherwise.  Children are resolved through
`all_nodes`; the fuel argument makes the recursion structural, and any fuel
bounding the tree height (in particular `all_nodes.length`, thanks to the
builder's child-id-smaller-than-parent invariant) computes the true depth. -/
def nodeDepthF (all : List Node) : Nat → Node → Nat
  | 0, _ => 0
  | fuel + 1, n =>
    if n.child_indices = ∅ then 0
    else 1 + n.child_indices.sup (fun i =>
      match dict_lookup all i with
      | some c => nodeDepthF all fuel c
      | none => 0)

/-- Depth of a built tree: the maximal root depth. -/
def treeDepth (g : IndexGraph) : Nat :=
  (g.root_nodes.map (nodeDepthF g.all_nodes g.all_nodes.length)).foldr max 0

/-- Number of merge passes the builder performs on a layer of `k ≥ 1` nodes
with branching factor `B ≥ 2`: one pass maps `k` to `⌈k / B⌉` and the
recursion stops as soon as the new layer is `≤ B`.  (The `B ≤ 1` guard only
makes the recursion well-founded; the builder itself diverges there.) -/
def passCount (B k : Nat) : Nat :=
  if hB : B ≤ 1 then 1
  else if hs : cdiv k B ≤ B then 1
  else 1 + passCount B (cdiv k B)
termination_by k
decreasing_by
  have hB2 : 2 ≤ B := by omega
  have hk2 : 2 ≤ k := by
    by_contra hk
    apply hs
    have hk1 : k = 0 ∨ k = 1 := by omega
    rcases hk1 with rfl | rfl
    · have h0 : cdiv 0 B = 0 := by
        unfold cdiv
        exact Nat.div_eq_of_lt (by omega)
      omega
    · have h1 : cdiv 1 B = 1 := by
        unfold cdiv
        have he : 1 + B - 1 = B := by omega
        rw [he]
        exact Nat.div_self (by omega)
      omega
  show cdiv k B < k
  obtain ⟨b, rfl⟩ : ∃ b, B = b + 2 := ⟨B - 2, by omega⟩
  unfold cdiv
  rw [Nat.div_lt_iff_lt_mul (by omega)]
  have hb1 : b ≤ k * b := Nat.le_mul_of_pos_left b (by omega)
  have hb2 : k * (b + 2) = k * b + k * 2 := Nat.mul_add k b 2
  omega

/-- The invariant the builder maintains, relating the accumulated node
dictionary `all` to the current layer `cur` (whose nodes all sit at uniform
depth `d` in the final tree): node ids are exactly the positions
`0 .. all.length - 1`; the layer is part of the dictionary, has strictly
increasing ids, and none of its nodes is a child of anything yet; children
always have smaller ids than their parent, resolve inside the dictionary, and
no id is a child of two parents. -/
structure BuildInv (all cur : List Node) (d : Nat) : Prop where
  keys : all.map Node.index = List.range all.length
  cur_ne : cur ≠ []
  cur_mem : ∀ n ∈ cur, n ∈ all
  cur_chain : List.Pairwise (fun a b : Node => a.index < b.index) cur
  child_lt : ∀ n ∈ all, ∀ c ∈ n.child_indices, c < n.index
  child_bound : ∀ n ∈ all, ∀ c ∈ n.child_indices, c < all.length
  forest : List.Pairwise
    (fun a b : Node => a.child_indices ∩ b.child_indices = ∅) all
  unparented : ∀ m ∈ all, ∀ n ∈ cur, n.index ∉ m.child_indices
  depth : ∀ n ∈ cur, ∀ (ext : List Node) (F : Nat), d ≤ F →
    nodeDepthF (all ++ ext) F n = d
  d_lt : d < all.length

/-- The answer the spec prescribes for one selection listing, following its
words: process the selected nodes in order; the first is resolved with no
previous answer and its candidate answer becomes the running answer; each
later node's candidate answer is merged by the refine oracle, invoked with
the query, the existing running answer, and the node's own text concatenated
(with a newline) with the candidate answer.  Each listed node is paired with
its candidate answer. -/
def selection_chain_spec (o : QueryOracle) (query_str : String) :
    List (Node × String) → Option String → Option String
  | [], acc => acc
  | (nd, cand) :: rest, acc =>
    match acc with
    | none => selection_chain_spec o query_str rest (some cand)
    | some prev =>
      selection_chain_spec o query_str rest
        (some (o.refine query_str prev (nd.text ++ "\n" ++ cand)))

instance : IsTotal Node (fun a b => a.index ≤ b.index) :=
  ⟨fun a b => Nat.le_total a.index b.index⟩

instance : IsTrans Node (fun a b => a.index ≤ b.index) :=
  ⟨fun _ _ _ => Nat.le_trans⟩

/-! ### Concrete instances used by the closed theorems and witnesses -/

/-- A concrete leaf node. -/
def naW : Node := ⟨"ta", 0, ∅⟩

/-- A third concrete leaf node. -/
def ncW : Node := ⟨"tc", 2, ∅⟩

/-- A second concrete leaf node. -/
def nbW : Node := ⟨"tb", 1, ∅⟩

/-- A concrete two-leaf graph. -/
def gW : IndexGraph := ⟨[naW, nbW], [naW, nbW]⟩

/-- A stub oracle whose selection response is the text `"0"`. -/
def oracleZero : QueryOracle :=
  ⟨fun _ _ _ => "0", fun _ _ _ _ => "", fun ctx _ => "ANS:" ++ ctx,
   fun _ _ _ => ""⟩

/-- A stub oracle whose selection response contains no digit at all. -/
def oracleNoDigits : QueryOracle :=
  ⟨fun _ _ _ => "no numbers here", fun _ _ _ _ => "",
   fun ctx _ => "ANS:" ++ ctx, fun _ _ _ => ""⟩

/-- A stub oracle whose selection response names position 5. -/
def oracleFive : QueryOracle :=
  ⟨fun _ _ _ => "(5)", fun _ _ _ _ => "(5)", fun ctx _ => "ANS:" ++ ctx,
   fun _ _ _ => ""⟩

/-- A stub oracle selecting positions 1 and 2, with tagged answer and refine
outputs. -/
def oracleOneTwo : QueryOracle :=
  ⟨fun _ _ _ => "", fun _ _ _ _ => "(1) (2)",
   fun ctx q => "A:" ++ ctx ++ ":" ++ q,
   fun q prev ctx => "R:" ++ q ++ "|" ++ prev ++ "|" ++ ctx⟩

/-- A concrete summarizer stub. -/
def smW (s : String) : String := "S:" ++ s

/-- The graph built from three one-letter chunks with branching factor 2
(the match of `build_from_text_chunks` below is total on this input). -/
def gBuilt3 : IndexGraph :=
  (build_from_text_chunks 2 smW 5 ["a", "b", "c"]).getD ⟨[], []⟩

end GptIndex

namespace GptIndex

/-! ## Frame helper lemmas: the query engine never writes the graph -/

theorem candidate_response_frame (o : QueryOracle)
    (recq : IndexGraph → List Node → String → Nat → PRes × IndexGraph)
    (h : ∀ g c q l, (recq g c q l).2 = g) (g : IndexGraph) (nd : Node)
    (q : String) (lvl : Nat) : (candidate_response o recq g nd q lvl).2 = g := by
  unfold candidate_response
  split
  · rfl
  · cases hcd : child_node_dict g.all_nodes nd.child_indices with
    | none => rfl
    | some ch => exact h g ch q (lvl + 1)

theorem qwsn_frame (o : QueryOracle)
    (recq : IndexGraph → List Node → String → Nat → PRes × IndexGraph)
    (h : ∀ g c q l, (recq g c q l).2 = g) (g : IndexGraph) (nd : Node)
    (q : String) (prev : Option String) (lvl : Nat) :
    (_query_with_selected_node o recq g nd q prev lvl).2 = g := by
  unfold _query_with_selected_node
  have hc := candidate_response_frame o recq h g nd q lvl
  rcases hcr : candidate_response o recq g nd q lvl with ⟨r, g1⟩
  rw [hcr] at hc
  cases r with
  | val cr =>
    cases prev with
    | none => exact hc
    | some prev0 =>
      cases cr with
      | none => exact hc
      | some cr0 => exact hc
  | err => exact hc
  | gas => exact hc

theorem query_loop_frame (o : QueryOracle)
    (recq : IndexGraph → List Node → String → Nat → PRes × IndexGraph)
    (h : ∀ g c q l, (recq g c q l).2 = g) (L : List Node)
    (q resp : String) (lvl : Nat) :
    ∀ (ns : List Nat) (g : IndexGraph) (acc : Option String),
      (_query_loop o recq L q resp lvl g ns acc).2 = g := by
  intro ns
  induction ns with
  | nil => intro g acc; rfl
  | cons n rest ih =>
    intro g acc
    unfold _query_loop
    split
    · rfl
    · cases hpg : py_get L ((n : Int) - 1) with
      | none => rfl
      | some sel =>
        have hq := qwsn_frame o recq h g sel q acc lvl
        rcases hqe : _query_with_selected_node o recq g sel q acc lvl
          with ⟨r, g1⟩
        rw [hqe] at hq
        simp only [hqe]
        cases r with
        | val rr => exact (ih g1 rr).trans hq
        | err => exact hq
        | gas => exact hq

theorem _query_frame :
    ∀ (fuel : Nat) (o : QueryOracle) (cbf : Nat) (g : IndexGraph)
      (cur : List Node) (q : String) (lvl : Nat),
      (_query o cbf fuel g cur q lvl).2 = g := by
  intro fuel
  induction fuel with
  | zero => intro o cbf g cur q lvl; rfl
  | succ f ih =>
    intro o cbf g cur q lvl
    simp only [_query]
    exact query_loop_frame o _ (fun g c q l => ih o cbf g c q l) _ _ _ _ _ g _

/-- Claim C9: for every query string and every oracle, executing `query`
leaves the `IndexGraph` completely unchanged — the threaded graph state
returned by the query engine is identical (all nodes, roots, and hence every
node's id, text and child set) to the one it started from. -/
theorem claim9_theorem (o : QueryOracle) (cbf fuel : Nat) (g : IndexGraph)
    (q : String) : (query o cbf fuel g q).2 = g := by
  unfold query
  have h := _query_frame fuel o cbf g g.root_nodes q 0
  rcases he : _query o cbf fuel g g.root_nodes q 0 with ⟨r, g1⟩
  rw [he] at h
  cases r with
  | val cr => cases cr with
    | none => exact h
    | some s => exact h
  | err => exact h
  | gas => exact h

/-- Claim C8: loading a saved graph yields a graph structurally equal to the
original — same node ids, texts, child sets, and same root set. -/
theorem claim8_theorem (g : IndexGraph) :
    graph_of_saved (graph_to_saved g) = g := by
  have hnode : ∀ n : Node, repr_to_node (node_to_repr n) = n := by
    intro n
    cases n with
    | mk t i c => simp [repr_to_node, node_to_repr, Finset.sort_toFinset]
  cases g with
  | mk all roots =>
    simp [graph_of_saved, graph_to_saved, List.map_map, Function.comp_def,
      hnode]

/-- Claim C10: a selection response from which zero numbers are extracted
makes `_query`'s loop body never execute, so `_query` returns Python `None`;
`query` then calls `.strip()` on that `None` and raises instead of returning
the raw oracle response or any answer string. -/
theorem claim10_theorem :
    extract_numbers_given_response "no numbers here" 1 = [] ∧
    (_query oracleNoDigits 1 1 gW gW.root_nodes "q" 0).1 = PRes.val none ∧
    (query oracleNoDigits 1 1 gW "q").1 = PRes.err := by
  exact ⟨by decide, by decide, by decide⟩

/-! ## The selection loop: abort on out-of-range numbers, refine chaining -/

theorem py_get_of_pos (L : List Node) (n : Nat) (h1 : 1 ≤ n) :
    py_get L ((n : Int) - 1) = L.get? (n - 1) := by
  unfold py_get
  rw [if_pos (by omega)]
  congr 1
  omega

theorem qwsn_of_candidate (o : QueryOracle)
    (recq : IndexGraph → List Node → String → Nat → PRes × IndexGraph)
    (g : IndexGraph) (nd : Node) (q : String) (lvl : Nat) (acc : Option String)
    (c : String)
    (h : candidate_response o recq g nd q lvl = (PRes.val (some c), g)) :
    _query_with_selected_node o recq g nd q acc lvl =
      (PRes.val (some (match acc with
        | none => c
        | some prev => o.refine q prev (nd.text ++ "\n" ++ c))), g) := by
  unfold _query_with_selected_node
  rw [h]
  cases acc <;> rfl

theorem query_loop_abort (o : QueryOracle)
    (recq : IndexGraph → List Node → String → Nat → PRes × IndexGraph)
    (L : List Node) (q resp : String) (lvl : Nat) :
    ∀ (pre : List Nat) (n0 : Nat) (rest : List Nat) (g : IndexGraph)
      (acc : Option String),
      (∀ m ∈ pre, 1 ≤ m ∧ m ≤ L.length) →
      (∀ m ∈ pre, ∀ nd, L.get? (m - 1) = some nd →
        ∃ c, candidate_response o recq g nd q lvl = (PRes.val (some c), g)) →
      L.length < n0 →
      _query_loop o recq L q resp lvl g (pre ++ n0 :: rest) acc =
        (PRes.val (some resp), g) := by
  intro pre
  induction pre with
  | nil =>
    intro n0 rest g acc _ _ hn0
    unfold _query_loop
    rw [List.nil_append]
    simp only [_query_loop, if_pos hn0]
  | cons m pre ih =>
    intro n0 rest g acc hpre hcand hn0
    have hm := hpre m (List.mem_cons_self m pre)
    have hlt : m - 1 < L.length := by omega
    have hnd : L.get? (m - 1) = some (L.get ⟨m - 1, hlt⟩) := List.get?_eq_get hlt
    rcases hcand m (List.mem_cons_self m pre) _ hnd with ⟨c, hc⟩
    rw [List.cons_append]
    unfold _query_loop
    rw [if_neg (by omega), py_get_of_pos L m hm.1, hnd]
    dsimp only
    rw [qwsn_of_candidate o recq g _ q lvl acc c hc]
    exact ih n0 rest g _ (fun x hx => hpre x (List.mem_cons_of_mem m hx))
      (fun x hx => hcand x (List.mem_cons_of_mem m hx)) hn0

theorem query_loop_chain (o : QueryOracle)
    (recq : IndexGraph → List Node → String → Nat → PRes × IndexGraph)
    (L : List Node) (q resp : String) (lvl : Nat) (cand : Nat → String) :
    ∀ (ns : List Nat) (g : IndexGraph) (acc : Option String),
      (∀ n ∈ ns, 1 ≤ n ∧ n ≤ L.length) →
      (∀ n ∈ ns, ∀ nd, L.get? (n - 1) = some nd →
        candidate_response o recq g nd q lvl = (PRes.val (some (cand n)), g)) →
      _query_loop o recq L q resp lvl g ns acc =
        (PRes.val (selection_chain_spec o q
          (ns.filterMap (fun n =>
            (L.get? (n - 1)).map (fun nd => (nd, cand n)))) acc), g) := by
  intro ns
  induction ns with
  | nil => intro g acc _ _; rfl
  | cons n rest ih =>
    intro g acc hrange hcand
    have hn := hrange n (List.mem_cons_self n rest)
    have hlt : n - 1 < L.length := by omega
    have hnd : L.get? (n - 1) = some (L.get ⟨n - 1, hlt⟩) := List.get?_eq_get hlt
    have hc := hcand n (List.mem_cons_self n rest) _ hnd
    unfold _query_loop
    rw [if_neg (by omega), py_get_of_pos L n hn.1, hnd]
    dsimp only
    rw [qwsn_of_candidate o recq g _ q lvl acc (cand n) hc,
      List.filterMap_cons, hnd]
    cases acc with
    | none =>
      dsimp only
      rw [ih g (some (cand n)) (fun x hx => hrange x (List.mem_cons_of_mem n hx))
        (fun x hx => hcand x (List.mem_cons_of_mem n hx))]
      rfl
    | some prev =>
      dsimp only
      rw [ih g
        (some (o.refine q prev ((L.get ⟨n - 1, hlt⟩).text ++ "\n" ++ cand n)))
        (fun x hx => hrange x (List.mem_cons_of_mem n hx))
        (fun x hx => hcand x (List.mem_cons_of_mem n hx))]
      rfl

/-- Claim C1 (amended): during one selection step over the sorted list of
`N` nodes, when a processed slot's extracted number exceeds `N` — earlier
slots, if any, holding in-range numbers with well-defined candidate
responses — `_query` aborts the selection at this level and returns the raw
oracle response verbatim as the answer, with no further descent and no
exception.  (Numbers below 1 are NOT rejected: extraction produces only
nonnegative digit runs, so no slot is unparsable, and an extracted `0`
selects the last node of the list via Python index `-1` — see the
counterexample.) -/
theorem claim1_theorem (o : QueryOracle) (cbf fuel : Nat) (g : IndexGraph)
    (cur : List Node) (q : String) (lvl : Nat) (pre rest : List Nat) (n0 : Nat)
    (hsplit : extract_numbers_given_response
        (selectionResponse o cbf (_get_sorted_node_list cur) q) cbf =
      pre ++ n0 :: rest)
    (hpre : ∀ m ∈ pre, 1 ≤ m ∧ m ≤ (_get_sorted_node_list cur).length)
    (hcand : ∀ m ∈ pre, ∀ nd,
      (_get_sorted_node_list cur).get? (m - 1) = some nd →
        ∃ c, candidate_response o (_query o cbf fuel) g nd q lvl =
          (PRes.val (some c), g))
    (hn0 : (_get_sorted_node_list cur).length < n0) :
    (_query o cbf (fuel + 1) g cur q lvl).1 =
      PRes.val (some (selectionResponse o cbf (_get_sorted_node_list cur) q)) := by
  simp only [_query]
  rw [hsplit, query_loop_abort o (_query o cbf fuel) _ q _ lvl pre n0 rest g
    none hpre hcand hn0]

/-- Witness for Claim C1's amended theorem: two nodes, selection response
`"(5)"`, extracted number `5 > 2` in the first slot. -/
theorem claim1_witness :
    (_query oracleFive 1 1 gW [naW, nbW] "q" 0).1 =
      PRes.val (some (selectionResponse oracleFive 1
        (_get_sorted_node_list [naW, nbW]) "q")) :=
  claim1_theorem oracleFive 1 0 gW [naW, nbW] "q" 0 [] [] 5 (by decide)
    (by intro m hm; exact absurd hm (List.not_mem_nil m))
    (by intro m hm; exact absurd hm (List.not_mem_nil m))
    (by decide)

/-- Claim C6: during one selection step the extracted numbers are processed
in order of appearance; the first selected node is resolved with no previous
answer and its candidate answer becomes the running answer; each subsequent
node is resolved with the running answer accumulated so far, in which case
the refine oracle receives the query, the existing answer, and the node's own
text concatenated (newline-joined) with the candidate answer; the final
accumulated answer is returned.  `cand n` is the candidate answer the code
produces for the node at 1-indexed position `n` (leaf answer or recursive
descent). -/
theorem claim6_theorem (o : QueryOracle) (cbf fuel : Nat) (g : IndexGraph)
    (cur : List Node) (q : String) (lvl : Nat) (ns : List Nat)
    (cand : Nat → String)
    (hns : extract_numbers_given_response
        (selectionResponse o cbf (_get_sorted_node_list cur) q) cbf = ns)
    (hrange : ∀ n ∈ ns, 1 ≤ n ∧ n ≤ (_get_sorted_node_list cur).length)
    (hcand : ∀ n ∈ ns, ∀ nd,
      (_get_sorted_node_list cur).get? (n - 1) = some nd →
        candidate_response o (_query o cbf fuel) g nd q lvl =
          (PRes.val (some (cand n)), g)) :
    (_query o cbf (fuel + 1) g cur q lvl).1 =
      PRes.val (selection_chain_spec o q
        (ns.filterMap (fun n =>
          ((_get_sorted_node_list cur).get? (n - 1)).map
            (fun nd => (nd, cand n)))) none) := by
  simp only [_query]
  rw [hns, query_loop_chain o (_query o cbf fuel) _ q _ lvl cand ns g none
    hrange hcand]

/-- Witness for Claim C6: positions 1 and 2 of a two-leaf listing; the final
answer is the refine of the two leaf answers, with the second node's text
prepended to the second candidate in the refine context. -/
theorem claim6_witness :
    (_query oracleOneTwo 2 1 gW [naW, nbW] "q" 0).1 =
      PRes.val (some ("R:q|A:ta:q|tb" ++ "\n" ++ "A:tb:q")) := by
  have h := claim6_theorem oracleOneTwo 2 0 gW [naW, nbW] "q" 0 [1, 2]
    (fun n => if n = 1 then "A:ta:q" else "A:tb:q") (by decide) (by decide)
    (by
      intro n hn nd hnd
      have hsort : _get_sorted_node_list [naW, nbW] = [naW, nbW] := by decide
      rw [hsort] at hnd
      simp only [List.mem_cons, List.not_mem_nil, or_false] at hn
      rcases hn with rfl | rfl
      · simp only [List.get?] at hnd
        cases hnd
        decide
      · simp only [List.get?] at hnd
        cases hnd
        decide)
  exact h.trans (by decide)

/-- Claim C1 counterexample: over the sorted two-node list `[naW, nbW]`
(`N = 2`), the selection response `"0"` yields the extracted number `0`,
which is outside `[1, N]`; the claim says `_query` then returns the raw
response `"0"` with no descent, but the code only rejects numbers `> N`:
`cur_node_list[0 - 1]` is the LAST node, so `_query` descends into `nbW` and
returns the leaf answer `"ANS:tb"`, not the raw response. -/
theorem claim1_counterexample :
    oracleZero.select 2 "q"
        (_get_numbered_text_from_nodes (_get_sorted_node_list [naW, nbW])) =
      "0" ∧
    extract_numbers_given_response "0" 1 = [0] ∧
    (_query oracleZero 1 1 gW [naW, nbW] "q" 0).1 = PRes.val (some "ANS:tb") ∧
    PRes.val (some "ANS:tb") ≠ PRes.val (some "0") := by
  exact ⟨rfl, by decide, by decide, by decide⟩

/-! ## The builder: merge-pass structure and the root layer -/

theorem cdiv_zero_left (B : Nat) (hB : 1 ≤ B) : cdiv 0 B = 0 := by
  unfold cdiv
  exact Nat.div_eq_of_lt (by omega)

theorem cdiv_succ (B n : Nat) (hB : 1 ≤ B) :
    cdiv (n + 1) B = cdiv (n - (B - 1)) B + 1 := by
  unfold cdiv
  have h1 : n + 1 + B - 1 = n + B := by omega
  rw [h1, Nat.add_div_right n (by omega)]
  rcases le_or_lt n (B - 1) with h | h
  · have h2 : n - (B - 1) = 0 := by omega
    have h3 : n / B = 0 := Nat.div_eq_of_lt (by omega)
    have h4 : (0 + B - 1) / B = 0 := Nat.div_eq_of_lt (by omega)
    rw [h2, h3, h4]
  · have h2 : n - (B - 1) + B - 1 = n := by omega
    rw [h2]

theorem cdiv_pos (B n : Nat) (hB : 1 ≤ B) (hn : 1 ≤ n) : 1 ≤ cdiv n B := by
  unfold cdiv
  rw [Nat.le_div_iff_mul_le (by omega)]
  omega

theorem lt_of_lt_cdiv (B n j : Nat) (hB : 1 ≤ B) (hj : j < cdiv n B) :
    j * B < n := by
  unfold cdiv at hj
  have h2 : (j + 1) * B ≤ n + B - 1 := (Nat.le_div_iff_mul_le (by omega)).mp hj
  rw [Nat.succ_mul] at h2
  omega

theorem _build_pass_fuel_length (B : Nat) (sm : String → String) (hB : 1 ≤ B) :
    ∀ (fuel ci : Nat) (l : List Node), l.length ≤ fuel →
      (_build_pass_fuel B sm fuel ci l).length = cdiv l.length B := by
  intro fuel
  induction fuel with
  | zero =>
    intro ci l hl
    have hnil : l = [] := List.eq_nil_of_length_eq_zero (by omega)
    subst hnil
    simp [_build_pass_fuel, cdiv_zero_left B hB]
  | succ f ih =>
    intro ci l hl
    cases l with
    | nil => simp [_build_pass_fuel, cdiv_zero_left B hB]
    | cons x xs =>
      simp only [_build_pass_fuel, List.length_cons]
      rw [ih (ci + 1) (xs.drop (B - 1))
        (by rw [List.length_drop]; simp only [List.length_cons] at hl; omega)]
      rw [List.length_drop, cdiv_succ B xs.length hB]

theorem _build_pass_fuel_get (B : Nat) (sm : String → String) (hB : 1 ≤ B) :
    ∀ (fuel ci : Nat) (l : List Node) (j : Nat), l.length ≤ fuel →
      j < (_build_pass_fuel B sm fuel ci l).length →
      (_build_pass_fuel B sm fuel ci l).get? j =
        some ⟨sm (_get_text_from_nodes ((l.drop (j * B)).take B)), ci + j,
          (((l.drop (j * B)).take B).map Node.index).toFinset⟩ := by
  obtain ⟨b, rfl⟩ : ∃ b, B = b + 1 := ⟨B - 1, by omega⟩
  intro fuel
  induction fuel with
  | zero =>
    intro ci l j hl hj
    have hnil : l = [] := List.eq_nil_of_length_eq_zero (by omega)
    subst hnil
    simp [_build_pass_fuel] at hj
  | succ f ih =>
    intro ci l j hl hj
    cases l with
    | nil => simp [_build_pass_fuel] at hj
    | cons x xs =>
      cases j with
      | zero =>
        simp only [_build_pass_fuel, List.get?_cons_zero, Nat.add_sub_cancel]
        rw [Nat.zero_mul, List.drop_zero, List.take_succ_cons, Nat.add_zero]
      | succ j =>
        simp only [_build_pass_fuel, List.get?_cons_succ, Nat.add_sub_cancel]
        simp only [_build_pass_fuel, List.length_cons, Nat.add_sub_cancel] at hj
        have hl2 : (xs.drop b).length ≤ f := by
          rw [List.length_drop]
          simp only [List.length_cons] at hl
          omega
        have hj2 : j < (_build_pass_fuel (b + 1) sm f (ci + 1) (xs.drop b)).length := by
          omega
        rw [ih (ci + 1) (xs.drop b) j hl2 hj2]
        have hgroup : (x :: xs).drop ((j + 1) * (b + 1)) =
            (xs.drop b).drop (j * (b + 1)) := by
          rw [List.drop_drop,
            show (j + 1) * (b + 1) = (b + j * (b + 1)) + 1 from by ring,
            List.drop_succ_cons]
        rw [hgroup, show ci + (j + 1) = ci + 1 + j from by omega]

theorem _build_pass_fuel_mem (B : Nat) (sm : String → String) :
    ∀ (fuel ci : Nat) (l : List Node), ∀ m ∈ _build_pass_fuel B sm fuel ci l,
      m.child_indices ≠ ∅ ∧ ci ≤ m.index := by
  intro fuel
  induction fuel with
  | zero =>
    intro ci l m hm
    cases l with
    | nil => simp [_build_pass_fuel] at hm
    | cons x xs => simp [_build_pass_fuel] at hm
  | succ f ih =>
    intro ci l m hm
    cases l with
    | nil => simp [_build_pass_fuel] at hm
    | cons x xs =>
      simp only [_build_pass_fuel, List.mem_cons] at hm
      rcases hm with rfl | hm
      · refine ⟨by simp, Nat.le_refl ci⟩
      · have h := ih (ci + 1) (xs.drop (B - 1)) m hm
        exact ⟨h.1, by omega⟩

theorem dict_update_length_ge (old new : List Node) :
    old.length ≤ (dict_update old new).length := by
  simp only [dict_update, List.length_append, List.length_map]
  exact Nat.le_add_right _ _

theorem _build_index_roots (B : Nat) (sm : String → String) (hB : 1 ≤ B) :
    ∀ (fuel : Nat) (cur all all2 roots : List Node),
      _build_index_from_nodes B sm fuel cur all = some (all2, roots) →
      (cur ≠ [] → 1 ≤ roots.length ∧ roots.length ≤ B) ∧
      (∀ m ∈ roots, m.child_indices ≠ ∅ ∧ all.length ≤ m.index) := by
  intro fuel
  induction fuel with
  | zero =>
    intro cur all all2 roots h
    exact absurd h (by simp [_build_index_from_nodes])
  | succ f ih =>
    intro cur all all2 roots h
    simp only [_build_index_from_nodes] at h
    by_cases hle :
      (_build_pass B sm all.length (_get_sorted_node_list cur)).length ≤ B
    · rw [if_pos hle] at h
      injection h with h1
      injection h1 with ha hroots
      subst ha
      subst hroots
      constructor
      · intro hcur
        refine ⟨?_, hle⟩
        have hlen : (_get_sorted_node_list cur).length = cur.length :=
          (List.perm_insertionSort _ cur).length_eq
        have hcl : 1 ≤ cur.length := by
          cases cur with
          | nil => exact absurd rfl hcur
          | cons y ys => simp
        rw [_build_pass, _build_pass_fuel_length B sm hB _ _ _ (Nat.le_refl _),
          hlen]
        exact cdiv_pos B cur.length hB hcl
      · intro m hm
        exact _build_pass_fuel_mem B sm _ _ _ m hm
    · rw [if_neg hle] at h
      have ihr := ih _ _ all2 roots h
      constructor
      · intro _
        apply ihr.1
        intro hnil
        rw [hnil] at hle
        simp at hle
      · intro m hm
        refine ⟨(ihr.2 m hm).1, ?_⟩
        exact Nat.le_trans (dict_update_length_ge all _) (ihr.2 m hm).2

theorem build_from_text_chunks_eq (B : Nat) (sm : String → String)
    (fuel : Nat) (chunks : List String) (g : IndexGraph)
    (h : build_from_text_chunks B sm fuel chunks = some g) :
    _build_index_from_nodes B sm fuel
        (chunks.enum.map (fun p => Node.mk p.2 p.1 ∅))
        (chunks.enum.map (fun p => Node.mk p.2 p.1 ∅)) =
      some (g.all_nodes, g.root_nodes) := by
  replace h : (match _build_index_from_nodes B sm fuel
      (chunks.enum.map (fun p => Node.mk p.2 p.1 ∅))
      (chunks.enum.map (fun p => Node.mk p.2 p.1 ∅)) with
    | none => (none : Option IndexGraph)
    | some (all2, roots) => some ⟨all2, roots⟩) = some g := h
  rcases hb : _build_index_from_nodes B sm fuel
      (chunks.enum.map (fun p => Node.mk p.2 p.1 ∅))
      (chunks.enum.map (fun p => Node.mk p.2 p.1 ∅)) with _ | ⟨all2, roots⟩
  · rw [hb] at h
    cases h
  · rw [hb] at h
    injection h with h1
    subst h1
    exact hb

/-- Claim C3: a completed build from at least one chunk returns a graph whose
`root_nodes` is non-empty and of size at most the branching factor `B`. -/
theorem claim3_theorem (B : Nat) (sm : String → String) (fuel : Nat)
    (chunks : List String) (g : IndexGraph) (hB : 1 ≤ B) (hne : chunks ≠ [])
    (h : build_from_text_chunks B sm fuel chunks = some g) :
    1 ≤ g.root_nodes.length ∧ g.root_nodes.length ≤ B := by
  have hb := build_from_text_chunks_eq B sm fuel chunks g h
  have hleaf_ne : (chunks.enum.map (fun p => Node.mk p.2 p.1 ∅)) ≠ [] := by
    intro hc
    apply hne
    have hlen := congrArg List.length hc
    simp only [List.length_map, List.enum_length, List.length_nil] at hlen
    exact List.eq_nil_of_length_eq_zero hlen
  exact (_build_index_roots B sm hB fuel _ _ _ _ hb).1 hleaf_ne

/-- Witness for Claim C3 at `B = 2`, chunks `["a", "b", "c"]`. -/
theorem claim3_witness :
    1 ≤ gBuilt3.root_nodes.length ∧ gBuilt3.root_nodes.length ≤ 2 :=
  claim3_theorem 2 smW 5 ["a", "b", "c"] gBuilt3 (by decide) (by decide)
    (by rfl)

/-- Claim C7: a build always executes at least one merge pass, even when the
chunk layer already has `≤ B` nodes: every root node is a summary node with a
non-empty child set (so no leaf ever appears in `root_nodes`), and every root
id is at least the number of leaf chunks (so every root was created by a
merge pass, not taken from the leaf layer — in particular a single-chunk
corpus is summarized once before becoming the sole root). -/
theorem claim7_theorem (B : Nat) (sm : String → String) (fuel : Nat)
    (chunks : List String) (g : IndexGraph) (hB : 1 ≤ B)
    (h : build_from_text_chunks B sm fuel chunks = some g) :
    (∀ m ∈ g.root_nodes, m.child_indices ≠ ∅) ∧
    (∀ m ∈ g.root_nodes, chunks.length ≤ m.index) := by
  have hb := build_from_text_chunks_eq B sm fuel chunks g h
  have h2 := (_build_index_roots B sm hB fuel _ _ _ _ hb).2
  constructor
  · intro m hm
    exact (h2 m hm).1
  · intro m hm
    have h3 := (h2 m hm).2
    simpa only [List.length_map, List.enum_length] using h3

/-- Witness for Claim C7: the two summary roots built from three chunks both
have children and ids `≥ 3`. -/
theorem claim7_witness :
    (∀ m ∈ gBuilt3.root_nodes, m.child_indices ≠ ∅) ∧
    (∀ m ∈ gBuilt3.root_nodes, (["a", "b", "c"] : List String).length ≤ m.index) :=
  claim7_theorem 2 smW 5 ["a", "b", "c"] gBuilt3 (by decide) (by rfl)

/-- Claim C4: in every merge pass the current layer is sorted by id, and the
pass partitions that sorted list into consecutive groups of up to `B` nodes
(`cur_node_list[i : i + B]`; the `j`-th new node's group is
`(L.drop (j * B)).take B`, never empty, the last one possibly smaller); for
each group the member texts are concatenated in id order, each followed by a
newline (`_get_text_from_nodes`), that concatenation is passed to the
summarization oracle, and the new node gets id `cur_index + j` (successive
values of the id counter, which the builder starts at `len(all_nodes)`, the
next unused id by Claim C5's key invariant), text equal to the oracle output,
and `child_indices` exactly the group's member ids. -/
theorem claim4_theorem (B : Nat) (sm : String → String) (ci : Nat)
    (cur L : List Node) (hB : 1 ≤ B) (hL : L = _get_sorted_node_list cur) :
    List.Sorted (fun a b : Node => a.index ≤ b.index) L ∧
    L.Perm cur ∧
    (_build_pass B sm ci L).length = cdiv L.length B ∧
    (∀ j, j < (_build_pass B sm ci L).length → (L.drop (j * B)).take B ≠ []) ∧
    (∀ j, j < (_build_pass B sm ci L).length →
      (_build_pass B sm ci L).get? j =
        some ⟨sm (_get_text_from_nodes ((L.drop (j * B)).take B)), ci + j,
          (((L.drop (j * B)).take B).map Node.index).toFinset⟩) := by
  subst hL
  refine ⟨List.sorted_insertionSort _ cur, List.perm_insertionSort _ cur,
    _build_pass_fuel_length B sm hB _ _ _ (Nat.le_refl _), ?_, ?_⟩
  · intro j hj
    rw [_build_pass, _build_pass_fuel_length B sm hB _ _ _ (Nat.le_refl _)] at hj
    have hjB := lt_of_lt_cdiv B _ j hB hj
    apply List.ne_nil_of_length_pos
    rw [List.length_take, List.length_drop]
    omega
  · intro j hj
    exact _build_pass_fuel_get B sm hB _ _ _ j (Nat.le_refl _) hj

/-- Witness for Claim C4: the second group (`j = 1`, the smaller last group)
of a three-node layer with `B = 2` and id counter starting at 3. -/
theorem claim4_witness :
    (_build_pass 2 smW 3 (_get_sorted_node_list [naW, nbW, ncW])).get? 1 =
      some ⟨smW (_get_text_from_nodes
          (((_get_sorted_node_list [naW, nbW, ncW]).drop (1 * 2)).take 2)),
        3 + 1,
        ((((_get_sorted_node_list [naW, nbW, ncW]).drop (1 * 2)).take 2).map
          Node.index).toFinset⟩ :=
  (claim4_theorem 2 smW 3 [naW, nbW, ncW]
    (_get_sorted_node_list [naW, nbW, ncW]) (by decide) rfl).2.2.2.2 1
    (by decide)

/-! ## The builder invariant (Claims C5 and C2) -/

theorem nodeDepthF_leaf (all : List Node) (n : Node)
    (h : n.child_indices = ∅) : ∀ F, nodeDepthF all F n = 0 := by
  intro F
  cases F with
  | zero => rfl
  | succ F => simp [nodeDepthF, h]

theorem nodeDepthF_step (all2 : List Node) (F : Nat) (n : Node) (d : Nat)
    (hne : n.child_indices ≠ ∅)
    (h : ∀ c ∈ n.child_indices,
      (match dict_lookup all2 c with
        | some x => nodeDepthF all2 F x
        | none => 0) = d) :
    nodeDepthF all2 (F + 1) n = d + 1 := by
  simp only [nodeDepthF, if_neg hne]
  rw [Finset.sup_congr rfl h,
    Finset.sup_const (Finset.nonempty_iff_ne_empty.mpr hne) d]
  omega

theorem dict_lookup_append_of_some (l1 l2 : List Node) (i : Nat) (x : Node)
    (h : dict_lookup l1 i = some x) : dict_lookup (l1 ++ l2) i = some x := by
  simp only [dict_lookup] at h ⊢
  rw [List.find?_append, h]
  rfl

theorem dict_lookup_eq_none (l : List Node) (i : Nat)
    (h : ∀ x ∈ l, x.index ≠ i) : dict_lookup l i = none := by
  simp only [dict_lookup, List.find?_eq_none]
  intro x hx
  simpa using h x hx

theorem dict_lookup_self (l : List Node) (hnd : (l.map Node.index).Nodup) :
    ∀ n ∈ l, dict_lookup l n.index = some n := by
  induction l with
  | nil => intro n hn; simp at hn
  | cons x xs ih =>
    intro n hn
    rcases List.mem_cons.mp hn with rfl | hn2
    · exact List.find?_cons_of_pos _ (by simp)
    · have hx : (x.index == n.index) = false := by
        simp only [List.map_cons, List.nodup_cons] at hnd
        simp only [beq_eq_false_iff_ne, ne_eq]
        intro he
        apply hnd.1
        rw [he]
        exact List.mem_map.mpr ⟨n, hn2, rfl⟩
      have h1 : dict_lookup (x :: xs) n.index = dict_lookup xs n.index := by
        simp only [dict_lookup]
        exact List.find?_cons_of_neg _ (by simp [hx])
      rw [h1]
      refine ih ?_ n hn2
      simp only [List.map_cons, List.nodup_cons] at hnd
      exact hnd.2

theorem keys_index_lt (all : List Node)
    (hk : all.map Node.index = List.range all.length) :
    ∀ x ∈ all, x.index < all.length := by
  intro x hx
  have hm : x.index ∈ all.map Node.index := List.mem_map.mpr ⟨x, hx, rfl⟩
  rw [hk] at hm
  exact List.mem_range.mp hm

theorem keys_nodup (all : List Node)
    (hk : all.map Node.index = List.range all.length) :
    (all.map Node.index).Nodup := by
  rw [hk]
  exact List.nodup_range _

theorem keys_exists (all : List Node)
    (hk : all.map Node.index = List.range all.length) :
    ∀ c, c < all.length → ∃ m ∈ all, m.index = c := by
  intro c hc
  have hm : c ∈ all.map Node.index := by
    rw [hk]
    exact List.mem_range.mpr hc
  exact List.mem_map.mp hm

theorem dict_update_append (old new : List Node)
    (h1 : ∀ n ∈ old, dict_lookup new n.index = none)
    (h2 : ∀ m ∈ new, dict_lookup old m.index = none) :
    dict_update old new = old ++ new := by
  unfold dict_update
  congr 1
  · have hmap : ∀ n ∈ old, (dict_lookup new n.index).getD n = n := by
      intro n hn
      rw [h1 n hn]
      rfl
    rw [List.map_congr_left hmap, List.map_id']
  · rw [List.filter_eq_self]
    intro m hm
    rw [h2 m hm]
    rfl

theorem _build_pass_fuel_ids (B : Nat) (sm : String → String) :
    ∀ (fuel ci : Nat) (l : List Node), l.length ≤ fuel →
      (_build_pass_fuel B sm fuel ci l).map Node.index =
        List.range' ci (_build_pass_fuel B sm fuel ci l).length := by
  intro fuel
  induction fuel with
  | zero =>
    intro ci l hl
    have hnil : l = [] := List.eq_nil_of_length_eq_zero (by omega)
    subst hnil
    simp [_build_pass_fuel]
  | succ f ih =>
    intro ci l hl
    cases l with
    | nil => simp [_build_pass_fuel]
    | cons x xs =>
      simp only [_build_pass_fuel, List.map_cons, List.length_cons]
      rw [List.range'_succ,
        ih (ci + 1) (xs.drop (B - 1))
          (by rw [List.length_drop]; simp only [List.length_cons] at hl; omega)]

theorem _build_pass_fuel_struct (B : Nat) (sm : String → String) :
    ∀ (fuel ci : Nat) (l : List Node),
      ∀ m ∈ _build_pass_fuel B sm fuel ci l, ∃ gr : List Node, gr ≠ [] ∧
        (∀ x ∈ gr, x ∈ l) ∧ m.child_indices = (gr.map Node.index).toFinset := by
  intro fuel
  induction fuel with
  | zero =>
    intro ci l m hm
    cases l with
    | nil => simp [_build_pass_fuel] at hm
    | cons x xs => simp [_build_pass_fuel] at hm
  | succ f ih =>
    intro ci l m hm
    cases l with
    | nil => simp [_build_pass_fuel] at hm
    | cons x xs =>
      simp only [_build_pass_fuel, List.mem_cons] at hm
      rcases hm with rfl | hm
      · refine ⟨x :: xs.take (B - 1), by simp, ?_, rfl⟩
        intro y hy
        rcases List.mem_cons.mp hy with rfl | hy2
        · exact List.mem_cons_self y xs
        · exact List.mem_cons_of_mem x (List.mem_of_mem_take hy2)
      · obtain ⟨gr, hne, hsub, hch⟩ := ih (ci + 1) (xs.drop (B - 1)) m hm
        exact ⟨gr, hne,
          fun y hy => List.mem_cons_of_mem x (List.mem_of_mem_drop (hsub y hy)),
          hch⟩

theorem _build_pass_fuel_children_sub (B : Nat) (sm : String → String)
    (fuel ci : Nat) (l : List Node) :
    ∀ m ∈ _build_pass_fuel B sm fuel ci l, ∀ c ∈ m.child_indices,
      ∃ x ∈ l, x.index = c := by
  intro m hm c hc
  obtain ⟨gr, _, hsub, hch⟩ := _build_pass_fuel_struct B sm fuel ci l m hm
  rw [hch, List.mem_toFinset] at hc
  obtain ⟨x, hx, rfl⟩ := List.mem_map.mp hc
  exact ⟨x, hsub x hx, rfl⟩

theorem _build_pass_fuel_forest (B : Nat) (sm : String → String) :
    ∀ (fuel ci : Nat) (l : List Node), (l.map Node.index).Nodup →
      List.Pairwise (fun a b : Node => a.child_indices ∩ b.child_indices = ∅)
        (_build_pass_fuel B sm fuel ci l) := by
  intro fuel
  induction fuel with
  | zero =>
    intro ci l h
    cases l with
    | nil => simp [_build_pass_fuel]
    | cons x xs => simp [_build_pass_fuel]
  | succ f ih =>
    intro ci l h
    cases l with
    | nil => simp [_build_pass_fuel]
    | cons x xs =>
      simp only [_build_pass_fuel]
      have hsplit : x :: xs = (x :: xs.take (B - 1)) ++ xs.drop (B - 1) := by
        rw [List.cons_append, List.take_append_drop]
      rw [hsplit, List.map_append, List.nodup_append] at h
      obtain ⟨hA, hC, hAC⟩ := h
      refine List.Pairwise.cons ?_ (ih (ci + 1) (xs.drop (B - 1)) hC)
      intro b hb
      rw [Finset.eq_empty_iff_forall_not_mem]
      intro c hc
      rw [Finset.mem_inter] at hc
      have hc1 : c ∈ (x :: xs.take (B - 1)).map Node.index := by
        simpa using hc.1
      obtain ⟨y, hy, hyi⟩ :=
        _build_pass_fuel_children_sub B sm f (ci + 1) (xs.drop (B - 1)) b hb
          c hc.2
      exact hAC hc1 (List.mem_map.mpr ⟨y, hy, hyi⟩)

theorem build_step (B : Nat) (sm : String → String) (hB : 1 ≤ B)
    (all cur L NP : List Node) (d : Nat) (hinv : BuildInv all cur d)
    (hL : L = _get_sorted_node_list cur)
    (hNP : NP = _build_pass B sm all.length L) :
    dict_update all NP = all ++ NP ∧ BuildInv (all ++ NP) NP (d + 1) ∧
    NP.length = cdiv cur.length B := by
  have hLperm : L.Perm cur := by
    rw [hL]
    exact List.perm_insertionSort _ cur
  have hLlen : L.length = cur.length := hLperm.length_eq
  have hNPlen : NP.length = cdiv cur.length B := by
    rw [hNP, _build_pass, _build_pass_fuel_length B sm hB _ _ _ (Nat.le_refl _),
      hLlen]
  have hcur_nodup : (cur.map Node.index).Nodup :=
    (List.pairwise_map.mpr hinv.cur_chain).imp (fun hab => Nat.ne_of_lt hab)
  have hL_nodup : (L.map Node.index).Nodup :=
    ((hLperm.map Node.index).nodup_iff).mpr hcur_nodup
  have hall_lt : ∀ x ∈ all, x.index < all.length := keys_index_lt all hinv.keys
  have hall_nodup : (all.map Node.index).Nodup := keys_nodup all hinv.keys
  have hNPids : NP.map Node.index = List.range' all.length NP.length := by
    rw [hNP, _build_pass]
    exact _build_pass_fuel_ids B sm _ _ _ (Nat.le_refl _)
  have hNPmem : ∀ m ∈ NP, m.child_indices ≠ ∅ ∧ all.length ≤ m.index := by
    rw [hNP, _build_pass]
    exact fun m hm => _build_pass_fuel_mem B sm _ _ _ m hm
  have hNPstruct : ∀ m ∈ NP, ∃ gr : List Node, gr ≠ [] ∧
      (∀ x ∈ gr, x ∈ cur) ∧
      m.child_indices = (gr.map Node.index).toFinset := by
    rw [hNP, _build_pass]
    intro m hm
    obtain ⟨gr, h1, h2, h3⟩ := _build_pass_fuel_struct B sm _ _ _ m hm
    exact ⟨gr, h1, fun x hx => hLperm.mem_iff.mp (h2 x hx), h3⟩
  have hNPchild : ∀ m ∈ NP, ∀ c ∈ m.child_indices, ∃ x ∈ cur, x.index = c := by
    intro m hm c hc
    obtain ⟨gr, _, hsub, hch⟩ := hNPstruct m hm
    rw [hch, List.mem_toFinset] at hc
    obtain ⟨x, hx, rfl⟩ := List.mem_map.mp hc
    exact ⟨x, hsub x hx, rfl⟩
  have hNPforest : List.Pairwise
      (fun a b : Node => a.child_indices ∩ b.child_indices = ∅) NP := by
    rw [hNP, _build_pass]
    exact _build_pass_fuel_forest B sm _ _ _ hL_nodup
  have hcur_lt : ∀ x ∈ cur, x.index < all.length :=
    fun x hx => hall_lt x (hinv.cur_mem x hx)
  have hcl : 1 ≤ cur.length := by
    cases hcu : cur with
    | nil => exact absurd hcu hinv.cur_ne
    | cons y ys => simp
  have hNP_pos : 1 ≤ NP.length := by
    rw [hNPlen]
    exact cdiv_pos B _ hB hcl
  have hupd : dict_update all NP = all ++ NP := by
    apply dict_update_append
    · intro n hn
      apply dict_lookup_eq_none
      intro x hx
      have ha := (hNPmem x hx).2
      have hb := hall_lt n hn
      omega
    · intro m hm
      apply dict_lookup_eq_none
      intro x hx
      have ha := hall_lt x hx
      have hb := (hNPmem m hm).2
      omega
  have hkeys2 : (all ++ NP).map Node.index = List.range (all ++ NP).length := by
    rw [List.map_append, hinv.keys, hNPids, List.length_append]
    simp only [List.range_eq_range']
    have hr := List.range'_append 0 all.length NP.length 1
    simp only [Nat.zero_add, Nat.one_mul] at hr
    rw [Nat.add_comm all.length NP.length, ← hr]
  refine ⟨hupd, ?_, hNPlen⟩
  refine ⟨hkeys2, List.ne_nil_of_length_pos (by omega), ?_, ?_, ?_, ?_, ?_, ?_,
    ?_, ?_⟩
  · exact fun n hn => List.mem_append_right all hn
  · have hpl := List.pairwise_lt_range' all.length NP.length
    rw [← hNPids] at hpl
    exact List.pairwise_map.mp hpl
  · intro n hn c hc
    rcases List.mem_append.mp hn with hn2 | hn2
    · exact hinv.child_lt n hn2 c hc
    · obtain ⟨x, hx, rfl⟩ := hNPchild n hn2 c hc
      have ha := hcur_lt x hx
      have hb := (hNPmem n hn2).2
      omega
  · intro n hn c hc
    rw [List.length_append]
    rcases List.mem_append.mp hn with hn2 | hn2
    · have := hinv.child_bound n hn2 c hc
      omega
    · obtain ⟨x, hx, rfl⟩ := hNPchild n hn2 c hc
      have := hcur_lt x hx
      omega
  · rw [List.pairwise_append]
    refine ⟨hinv.forest, hNPforest, ?_⟩
    intro a ha b hb
    rw [Finset.eq_empty_iff_forall_not_mem]
    intro c hc
    rw [Finset.mem_inter] at hc
    obtain ⟨x, hx, rfl⟩ := hNPchild b hb c hc.2
    exact hinv.unparented a ha x hx hc.1
  · intro m hm n hn
    intro hmem
    rcases List.mem_append.mp hm with hm2 | hm2
    · have ha := hinv.child_bound m hm2 _ hmem
      have hb := (hNPmem n hn).2
      omega
    · obtain ⟨x, hx, hxi⟩ := hNPchild m hm2 _ hmem
      have ha := hcur_lt x hx
      have hb := (hNPmem n hn).2
      omega
  · intro n hn ext F hF
    obtain ⟨F2, rfl⟩ : ∃ F2, F = F2 + 1 := ⟨F - 1, by omega⟩
    apply nodeDepthF_step
    · exact (hNPmem n hn).1
    · intro c hc
      obtain ⟨x, hx, rfl⟩ := hNPchild n hn c hc
      have hlook : dict_lookup ((all ++ NP) ++ ext) x.index = some x := by
        rw [List.append_assoc]
        exact dict_lookup_append_of_some _ _ _ _
          (dict_lookup_self all hall_nodup x (hinv.cur_mem x hx))
      simp only [hlook]
      rw [List.append_assoc]
      exact hinv.depth x hx (NP ++ ext) F2 (by omega)
  · rw [List.length_append]
    have := hinv.d_lt
    omega

theorem build_master (B : Nat) (sm : String → String) (hB : 1 ≤ B) :
    ∀ (fuel : Nat) (cur all all2 roots : List Node) (d : Nat),
      BuildInv all cur d →
      _build_index_from_nodes B sm fuel cur all = some (all2, roots) →
      ∃ d2, BuildInv all2 roots d2 ∧
        (2 ≤ B → d2 = d + passCount B cur.length) := by
  intro fuel
  induction fuel with
  | zero =>
    intro cur all all2 roots d hinv h
    exact absurd h (by simp [_build_index_from_nodes])
  | succ f ih =>
    intro cur all all2 roots d hinv h
    simp only [_build_index_from_nodes] at h
    obtain ⟨hupd, hinv2, hlen⟩ := build_step B sm hB all cur
      (_get_sorted_node_list cur)
      (_build_pass B sm all.length (_get_sorted_node_list cur)) d hinv rfl rfl
    rw [hupd] at h
    by_cases hle :
      (_build_pass B sm all.length (_get_sorted_node_list cur)).length ≤ B
    · rw [if_pos hle] at h
      injection h with h1
      injection h1 with ha hroots
      subst ha
      subst hroots
      refine ⟨d + 1, hinv2, ?_⟩
      intro hB2
      rw [hlen] at hle
      unfold passCount
      rw [dif_neg (by omega), dif_pos hle]
    · rw [if_neg hle] at h
      obtain ⟨d2, hinv3, hform⟩ := ih _ _ all2 roots (d + 1) hinv2 h
      refine ⟨d2, hinv3, ?_⟩
      intro hB2
      rw [hlen] at hle
      have hf2 := hform hB2
      rw [hlen] at hf2
      unfold passCount
      rw [dif_neg (by omega : ¬ B ≤ 1), dif_neg hle]
      omega

theorem initial_inv (chunks : List String) (hne : chunks ≠ []) :
    BuildInv (chunks.enum.map (fun p => Node.mk p.2 p.1 ∅))
      (chunks.enum.map (fun p => Node.mk p.2 p.1 ∅)) 0 := by
  have hkeys : (chunks.enum.map (fun p => Node.mk p.2 p.1 ∅)).map Node.index =
      List.range (chunks.enum.map (fun p => Node.mk p.2 p.1 ∅)).length := by
    rw [List.map_map]
    have hcomp : (Node.index ∘ fun p : Nat × String => Node.mk p.2 p.1 ∅) =
        Prod.fst := rfl
    rw [hcomp, List.enum_map_fst, List.length_map, List.enum_length]
  have hleaf : ∀ n ∈ chunks.enum.map (fun p => Node.mk p.2 p.1 ∅),
      n.child_indices = ∅ := by
    intro n hn
    obtain ⟨p, _, rfl⟩ := List.mem_map.mp hn
    rfl
  have hlen : (chunks.enum.map (fun p => Node.mk p.2 p.1 ∅)).length =
      chunks.length := by
    rw [List.length_map, List.enum_length]
  have hne2 : (chunks.enum.map (fun p => Node.mk p.2 p.1 ∅)) ≠ [] := by
    intro hc
    apply hne
    have hl := congrArg List.length hc
    rw [hlen] at hl
    exact List.eq_nil_of_length_eq_zero hl
  refine ⟨hkeys, hne2, fun n hn => hn, ?_, ?_, ?_, ?_, ?_, ?_, ?_⟩
  · have hpl : List.Pairwise (· < ·)
        ((chunks.enum.map (fun p => Node.mk p.2 p.1 ∅)).map Node.index) := by
      rw [hkeys]
      exact List.pairwise_lt_range _
    exact List.pairwise_map.mp hpl
  · intro n hn c hc
    rw [hleaf n hn] at hc
    exact absurd hc (Finset.not_mem_empty c)
  · intro n hn c hc
    rw [hleaf n hn] at hc
    exact absurd hc (Finset.not_mem_empty c)
  · apply List.pairwise_of_forall_mem_list
    intro a ha b hb
    rw [hleaf a ha, hleaf b hb]
    simp
  · intro m hm n hn
    rw [hleaf m hm]
    exact Finset.not_mem_empty _
  · intro n hn ext F _
    exact nodeDepthF_leaf _ n (hleaf n hn) F
  · rw [hlen]
    cases hcu : chunks with
    | nil => exact absurd hcu hne
    | cons c0 cs => simp

/-- Claim C5: in every graph produced by a build, every id appearing in any
node's `child_indices` is a key of `all_nodes` and is strictly smaller than
the parent's id, and no id appears in the child sets of two different
parents (the child relation is a forest). -/
theorem claim5_theorem (B : Nat) (sm : String → String) (fuel : Nat)
    (chunks : List String) (g : IndexGraph) (hB : 1 ≤ B) (hne : chunks ≠ [])
    (h : build_from_text_chunks B sm fuel chunks = some g) :
    (∀ n ∈ g.all_nodes, ∀ c ∈ n.child_indices,
      (∃ m ∈ g.all_nodes, m.index = c) ∧ c < n.index) ∧
    List.Pairwise (fun a b : Node => a.child_indices ∩ b.child_indices = ∅)
      g.all_nodes := by
  have hb := build_from_text_chunks_eq B sm fuel chunks g h
  obtain ⟨d2, hinv, _⟩ := build_master B sm hB fuel _ _ _ _ 0
    (initial_inv chunks hne) hb
  constructor
  · intro n hn c hc
    have hbound := hinv.child_bound n hn c hc
    exact ⟨keys_exists g.all_nodes hinv.keys c hbound, hinv.child_lt n hn c hc⟩
  · exact hinv.forest

/-- Witness for Claim C5 on the concrete three-chunk build. -/
theorem claim5_witness :
    (∀ n ∈ gBuilt3.all_nodes, ∀ c ∈ n.child_indices,
      (∃ m ∈ gBuilt3.all_nodes, m.index = c) ∧ c < n.index) ∧
    List.Pairwise (fun a b : Node => a.child_indices ∩ b.child_indices = ∅)
      gBuilt3.all_nodes :=
  claim5_theorem 2 smW 5 ["a", "b", "c"] gBuilt3 (by decide) (by decide)
    (by rfl)

/-! ## Termination and tree depth (Claim C2) -/

theorem cdiv_one_left (B : Nat) (hB : 1 ≤ B) : cdiv 1 B = 1 := by
  unfold cdiv
  have he : 1 + B - 1 = B := by omega
  rw [he]
  exact Nat.div_self (by omega)

theorem cdiv_one_right (n : Nat) : cdiv n 1 = n := by
  unfold cdiv
  rw [show n + 1 - 1 = n from by omega, Nat.div_one]

theorem cdiv_lt_self (B k : Nat) (hB : 2 ≤ B) (hk : 2 ≤ k) : cdiv k B < k := by
  obtain ⟨b, rfl⟩ : ∃ b, B = b + 2 := ⟨B - 2, by omega⟩
  unfold cdiv
  rw [Nat.div_lt_iff_lt_mul (by omega)]
  have hb1 : b ≤ k * b := Nat.le_mul_of_pos_left b (by omega)
  have hb2 : k * (b + 2) = k * b + k * 2 := Nat.mul_add k b 2
  omega

theorem cdiv_gt_imp_two_le (B k : Nat) (hB : 1 ≤ B) (h : ¬ cdiv k B ≤ B) :
    2 ≤ k := by
  by_contra hk
  apply h
  have hk1 : k = 0 ∨ k = 1 := by omega
  rcases hk1 with rfl | rfl
  · rw [cdiv_zero_left B hB]
    omega
  · rw [cdiv_one_left B hB]
    omega

theorem _get_sorted_node_list_perm (d : List Node) :
    (_get_sorted_node_list d).Perm d :=
  List.perm_insertionSort _ d

theorem build_terminates (B : Nat) (sm : String → String) (hB : 2 ≤ B) :
    ∀ (k fuel : Nat) (cur all : List Node), cur.length = k → 1 ≤ k →
      k ≤ fuel →
      (_build_index_from_nodes B sm fuel cur all).isSome = true := by
  intro k
  induction k using Nat.strong_induction_on with
  | _ k ih =>
    intro fuel cur all hk h1 hfuel
    obtain ⟨f, rfl⟩ : ∃ f, fuel = f + 1 := ⟨fuel - 1, by omega⟩
    simp only [_build_index_from_nodes]
    by_cases hle :
      (_build_pass B sm all.length (_get_sorted_node_list cur)).length ≤ B
    · rw [if_pos hle]
      rfl
    · rw [if_neg hle]
      have hlen :
          (_build_pass B sm all.length (_get_sorted_node_list cur)).length =
            cdiv k B := by
        rw [_build_pass,
          _build_pass_fuel_length B sm (by omega) _ _ _ (Nat.le_refl _),
          (_get_sorted_node_list_perm cur).length_eq, hk]
      have hgt : ¬ cdiv k B ≤ B := by
        rw [hlen] at hle
        exact hle
      have hk2 : 2 ≤ k := cdiv_gt_imp_two_le B k (by omega) hgt
      have hlt : cdiv k B < k := cdiv_lt_self B k hB hk2
      exact ih (cdiv k B) hlt f _ _ hlen (by omega) (by omega)

theorem build_B1_diverges (sm : String → String) :
    ∀ (fuel : Nat) (cur all : List Node), 2 ≤ cur.length →
      _build_index_from_nodes 1 sm fuel cur all = none := by
  intro fuel
  induction fuel with
  | zero => intro cur all h; rfl
  | succ f ih =>
    intro cur all h
    simp only [_build_index_from_nodes]
    have hlen :
        (_build_pass 1 sm all.length (_get_sorted_node_list cur)).length =
          cur.length := by
      rw [_build_pass,
        _build_pass_fuel_length 1 sm (Nat.le_refl 1) _ _ _ (Nat.le_refl _),
        (_get_sorted_node_list_perm cur).length_eq, cdiv_one_right]
    rw [if_neg (by rw [hlen]; omega)]
    exact ih _ _ (by rw [hlen]; omega)

theorem passCount_eq_clog (B : Nat) (hB : 2 ≤ B) :
    ∀ k, 1 ≤ k → passCount B k = max 1 (Nat.clog B k - 1) := by
  intro k
  induction k using Nat.strong_induction_on with
  | _ k ih =>
    intro hk
    unfold passCount
    rw [dif_neg (by omega : ¬ B ≤ 1)]
    by_cases hs : cdiv k B ≤ B
    · rw [dif_pos hs]
      have hk2 : k ≤ B ^ 2 := by
        unfold cdiv at hs
        have h2 : (k + B - 1) / B < B + 1 := by omega
        rw [Nat.div_lt_iff_lt_mul (by omega)] at h2
        have hexp : (B + 1) * B = B * B + B := by ring
        have hBB : B * B = B ^ 2 := by ring
        omega
      have hclog : Nat.clog B k ≤ 2 := (Nat.le_pow_iff_clog_le (by omega)).mp hk2
      omega
    · rw [dif_neg hs]
      have hk2 : 2 ≤ k := cdiv_gt_imp_two_le B k (by omega) hs
      have hrec : Nat.clog B k = Nat.clog B (cdiv k B) + 1 := by
        have hr := Nat.clog_of_two_le (by omega : 1 < B) hk2
        unfold cdiv
        exact hr
      have hlt := cdiv_lt_self B k hB hk2
      have hih := ih (cdiv k B) hlt (by omega)
      have hclog2 : 2 ≤ Nat.clog B (cdiv k B) := by
        by_contra hcl
        have hle1 : Nat.clog B (cdiv k B) ≤ 1 := by omega
        have hpow := (Nat.le_pow_iff_clog_le (by omega : 1 < B)).mpr hle1
        rw [pow_one] at hpow
        exact hs hpow
      rw [hih, hrec]
      omega

theorem foldr_max_const (l : List Nat) (d : Nat) (hne : l ≠ [])
    (h : ∀ x ∈ l, x = d) : l.foldr max 0 = d := by
  induction l with
  | nil => exact absurd rfl hne
  | cons x xs ih =>
    cases xs with
    | nil =>
      have hx := h x (List.mem_cons_self x [])
      simp [hx]
    | cons y ys =>
      have hx := h x (List.mem_cons_self x (y :: ys))
      rw [List.foldr_cons,
        ih (by simp) (fun z hz => h z (List.mem_cons_of_mem x hz)), hx]
      simp

/-- Any graph a completed build returns (at any fuel) has tree depth equal to
the number of merge passes. -/
theorem build_depth_eq (B : Nat) (sm : String → String) (fuel : Nat)
    (chunks : List String) (g : IndexGraph) (hB : 2 ≤ B) (hne : chunks ≠ [])
    (h : build_from_text_chunks B sm fuel chunks = some g) :
    treeDepth g = passCount B chunks.length := by
  have hb := build_from_text_chunks_eq B sm fuel chunks g h
  obtain ⟨d2, hinv, hform⟩ := build_master B sm (by omega) fuel _ _ _ _ 0
    (initial_inv chunks hne) hb
  have hd2 : d2 = passCount B chunks.length := by
    have hf := hform hB
    simpa only [List.length_map, List.enum_length, Nat.zero_add] using hf
  unfold treeDepth
  rw [← hd2]
  apply foldr_max_const
  · intro hc
    apply hinv.cur_ne
    cases hr : g.root_nodes with
    | nil => rfl
    | cons r rs =>
      rw [hr] at hc
      simp at hc
  · intro x hx
    obtain ⟨n, hn, rfl⟩ := List.mem_map.mp hx
    have hd := hinv.depth n hn [] g.all_nodes.length
      (by have := hinv.d_lt; omega)
    rw [List.append_nil] at hd
    exact hd

/-- Claim C2 (amended): for every branching factor `B ≥ 2` and every input
producing `K ≥ 1` chunks, the build terminates (the recursion is well-founded
because each merge pass shrinks any layer larger than `B`; fuel `K` suffices
in the fuel embedding), and the resulting tree depth — edges from a root down
to a leaf, equal to the number of merge passes — is `max 1 (⌈log_B K⌉ - 1)`,
not `⌈log_B K⌉`.  For `B = 1` the claim fails: a merge pass maps each node to
one summary node, the layer size never shrinks, and on any layer of at least
two nodes the recursion never terminates (every fuel is exhausted). -/
theorem claim2_theorem :
    (∀ (B : Nat) (sm : String → String) (chunks : List String), 2 ≤ B →
      chunks ≠ [] →
      (build_from_text_chunks B sm chunks.length chunks).isSome = true) ∧
    (∀ (B : Nat) (sm : String → String) (fuel : Nat) (chunks : List String)
      (g : IndexGraph), 2 ≤ B → chunks ≠ [] →
      build_from_text_chunks B sm fuel chunks = some g →
      treeDepth g = max 1 (Nat.clog B chunks.length - 1)) ∧
    (∀ (sm : String → String) (fuel : Nat) (cur all : List Node),
      2 ≤ cur.length → _build_index_from_nodes 1 sm fuel cur all = none) := by
  refine ⟨?_, ?_, ?_⟩
  · intro B sm chunks hB hne
    have hlenleaf : (chunks.enum.map (fun p => Node.mk p.2 p.1 ∅)).length =
        chunks.length := by
      rw [List.length_map, List.enum_length]
    have hK : 1 ≤ chunks.length := by
      cases hcu : chunks with
      | nil => exact absurd hcu hne
      | cons c0 cs => simp
    have hterm := build_terminates B sm hB chunks.length chunks.length
      (chunks.enum.map (fun p => Node.mk p.2 p.1 ∅))
      (chunks.enum.map (fun p => Node.mk p.2 p.1 ∅)) hlenleaf hK
      (Nat.le_refl _)
    obtain ⟨res, hres⟩ := Option.isSome_iff_exists.mp hterm
    rcases res with ⟨a2, r2⟩
    have hshow : (match _build_index_from_nodes B sm chunks.length
        (chunks.enum.map (fun p : Nat × String => Node.mk p.2 p.1 ∅))
        (chunks.enum.map (fun p : Nat × String => Node.mk p.2 p.1 ∅)) with
      | none => (none : Option IndexGraph)
      | some (all2, roots) => some ⟨all2, roots⟩).isSome = true := by
      rw [hres]
      rfl
    exact hshow
  · intro B sm fuel chunks g hB hne h
    have hK : 1 ≤ chunks.length := by
      cases hcu : chunks with
      | nil => exact absurd hcu hne
      | cons c0 cs => simp
    rw [build_depth_eq B sm fuel chunks g hB hne h,
      passCount_eq_clog B hB chunks.length hK]
  · intro sm fuel cur all h
    exact build_B1_diverges sm fuel cur all h

/-- Witness for Claim C2's amended theorem: a three-chunk build with `B = 2`
terminates and has depth `max 1 (⌈log₂ 3⌉ - 1) = 1`; with `B = 1` a
two-node layer never finishes at fuel 4. -/
theorem claim2_witness :
    (build_from_text_chunks 2 smW (["a", "b", "c"] : List String).length
      ["a", "b", "c"]).isSome = true ∧
    treeDepth gBuilt3 = max 1 (Nat.clog 2 (["a", "b", "c"] : List String).length - 1) ∧
    _build_index_from_nodes 1 smW 4 [naW, nbW] [naW, nbW] = none :=
  ⟨claim2_theorem.1 2 smW ["a", "b", "c"] (by decide) (by decide),
   claim2_theorem.2.1 2 smW 5 ["a", "b", "c"] gBuilt3 (by decide) (by decide)
     (by rfl),
   claim2_theorem.2.2 smW 4 [naW, nbW] [naW, nbW] (by decide)⟩

/-- Claim C2 counterexample: a single-chunk corpus (`K = 1`, `B = 2`) builds
a tree of depth 1 (one merge pass: the lone leaf gets one summary root above
it), while the claimed formula gives `⌈log_2 1⌉ = 0`. -/
theorem claim2_counterexample :
    (build_from_text_chunks 2 (fun s => s) 10 ["alpha"]).map treeDepth =
      some 1 ∧ Nat.clog 2 1 = 0 :=
  ⟨by decide, Nat.clog_of_right_le_one (by decide) 2⟩

end GptIndex
